import Mathlib

/-!
# Verification of the DareXAI document ingestion / RAG retrieval pipeline

Shallow embedding of the core of `backend/src/services/documentService.ts`
(`RecursiveCharacterTextSplitter.splitText`, `DocumentService.chunkText`,
`DocumentService.generateEmbedding`, `DocumentService.processDocument`,
`DocumentService.processDocumentFromText`, `DocumentService.searchDocuments`,
`DocumentService.deleteDocument`) together with the parts of
`backend/src/services/chromaService.ts` and `backend/src/models/Document.ts`
they depend on.

Modelling conventions:
* JavaScript strings are `List Char`; `String.prototype.trim` is `jsTrim`
  (strip leading/trailing whitespace), `\s+ → ' '` is `collapseWs`.
* JavaScript numbers used as sizes/indices/timestamps are `Nat`
  (the code only ever uses them as non-negative integers on the modelled
  paths; `end - overlap` is only recomputed when `end = start + chunkSize`,
  so truncated subtraction agrees with JS arithmetic there).
* Embedding-vector components and similarity scores are `Rat`
  (no claim depends on floating-point rounding).
* External services (Gemini, ChromaDB, MongoDB) are parameters of each
  operation: an environment record carries the response the service would
  give, and a store record carries the persistent state, so that one call
  of the TypeScript method is one total Lean function on those records.
-/

/-! ## Characters and strings -/

/-- Whitespace predicate used for JS `trim` / `\s`:
space, tab, line feed, carriage return (`Char.isWhitespace`). -/
def jsWs (c : Char) : Bool := c.isWhitespace

/-- `String.prototype.trim`: drop leading and trailing whitespace. -/
def jsTrim (l : List Char) : List Char :=
  ((l.dropWhile jsWs).reverse.dropWhile jsWs).reverse

/-- `text.replace(/\s+/g, ' ')`: collapse every maximal run of whitespace
to a single space. -/
def collapseWs : List Char → List Char
  | [] => []
  | c :: rest =>
    if jsWs c then ' ' :: collapseWs (rest.dropWhile jsWs)
    else c :: collapseWs rest
termination_by l => l.length
decreasing_by
  · simp only [List.length_cons]
    have : (rest.dropWhile jsWs).length ≤ rest.length := by
      induction rest with
      | nil => simp
      | cons a r ih =>
        rw [List.dropWhile_cons]
        by_cases hp : jsWs a
        · simp only [hp, if_true]
          exact Nat.le_succ_of_le ih
        · simp [hp]
    exact Nat.lt_succ_of_le this
  · simp

/-- The text cleaning at the head of `DocumentService.chunkText`:
`.replace(/\s+/g, ' ').replace(/\n{3,}/g, '\n\n').trim()`.
After the first replacement no newline remains, so the second
replacement is a no-op and is not modelled separately. -/
def normalizeText (l : List Char) : List Char := jsTrim (collapseWs l)

/-! ## Text splitter (`RecursiveCharacterTextSplitter.splitText`) -/

/-- One run of the `while (start < text.length && iterationCount < maxIterations)`
loop of `splitText`, with `fuel` the number of iterations still allowed.
Each iteration takes the window `text.slice(start, min (start+chunkSize) len)`,
pushes it when non-empty, sets `start := end - chunkOverlap` and breaks
exactly when `end ≥ text.length` (the two extra guard `if`s in the source
are no-ops: the first re-assigns the same value, the second requires
`end ≥ len` which the `else if` has already turned into a break). -/
def splitTextAux (t : List Char) (chunkSize chunkOverlap : Nat) :
    Nat → Nat → List (List Char)
  | 0, _ => []
  | fuel + 1, start =>
    if start < t.length then
      let stop := min (start + chunkSize) t.length
      let chunk := (t.drop start).take (stop - start)
      let pushed := if 0 < chunk.length then [chunk] else []
      if t.length ≤ stop then pushed
      else pushed ++ splitTextAux t chunkSize chunkOverlap fuel (stop - chunkOverlap)
    else []

/-- `RecursiveCharacterTextSplitter.splitText` with the source's
`maxIterations = 1000` safety cap, starting at offset `0`. -/
def splitText (t : List Char) (chunkSize chunkOverlap : Nat) : List (List Char) :=
  splitTextAux t chunkSize chunkOverlap 1000 0

/-! ## Chunk deduplication (body of `DocumentService.chunkText`) -/

/-- Signature of a chunk for near-duplicate detection:
`trimmedChunk.substring(0, 100).toLowerCase().replace(/\s+/g, '')`. -/
def chunkSignature (l : List Char) : List Char :=
  ((l.take 100).map Char.toLower).filter (fun c => !jsWs c)

/-- The deduplication loop of `chunkText`: trim each chunk, drop it when its
trimmed length is under 50, otherwise keep it iff its signature has not been
seen before (`seen` models the `seenContent` set). -/
def dedupeAux (seen : List (List Char)) : List (List Char) → List (List Char)
  | [] => []
  | c :: rest =>
    let tc := jsTrim c
    if tc.length < 50 then dedupeAux seen rest
    else
      let sg := chunkSignature tc
      if sg ∈ seen then dedupeAux seen rest
      else tc :: dedupeAux (sg :: seen) rest

/-- The deduplication stage of `DocumentService.chunkText`, applied to the
raw splitter output (spec §4.2 calls this `dedupe`). -/
def dedupeChunks (chunks : List (List Char)) : List (List Char) :=
  dedupeAux [] chunks

/-- `DocumentService.chunkText`: clean the text, split it with
`chunkSize = 1000, chunkOverlap = 100`, deduplicate.  The `catch` branch
(fallback to `fallbackChunking`) is unreachable in the model because every
stage is total. -/
def chunkText (text : List Char) : List (List Char) :=
  dedupeChunks (splitText (normalizeText text) 1000 100)

/-! ## Basic lemmas about trim and dedupe -/

theorem dropWhile_head_false {p : Char → Bool} {l t : List Char} {c : Char}
    (h : l.dropWhile p = c :: t) : p c = false := by
  induction l with
  | nil => simp [List.dropWhile] at h
  | cons a l ih =>
    by_cases hp : p a
    · exact ih (by simpa [List.dropWhile, hp] using h)
    · simp only [List.dropWhile, hp] at h
      cases h
      simpa using hp

theorem dropWhile_dropWhile (p : Char → Bool) (l : List Char) :
    (l.dropWhile p).dropWhile p = l.dropWhile p := by
  cases h : l.dropWhile p with
  | nil => simp
  | cons c t =>
    have := dropWhile_head_false h
    simp [List.dropWhile, this]

theorem dropWhile_suffix_self (p : Char → Bool) (l : List Char) :
    l.dropWhile p <:+ l := by
  induction l with
  | nil => simp
  | cons a l ih =>
    rw [List.dropWhile_cons]
    by_cases hp : p a
    · simp only [hp, if_true]
      exact ih.trans (List.suffix_cons a l)
    · simp [hp]

/-- The trimmed string is a prefix of the string with only its leading
whitespace removed. -/
theorem jsTrim_prefix_dropWhile (l : List Char) :
    jsTrim l <+: l.dropWhile jsWs := by
  unfold jsTrim
  have h := dropWhile_suffix_self jsWs (l.dropWhile jsWs).reverse
  conv_rhs => rw [← List.reverse_reverse (l.dropWhile jsWs)]
  exact List.reverse_prefix.mpr h

theorem jsTrim_head_false {l t : List Char} {c : Char}
    (h : jsTrim l = c :: t) : jsWs c = false := by
  rcases jsTrim_prefix_dropWhile l with ⟨s, hs⟩
  rw [h] at hs
  exact dropWhile_head_false hs.symm

theorem jsTrim_last_false {l t : List Char} {c : Char}
    (h : (jsTrim l).reverse = c :: t) : jsWs c = false := by
  unfold jsTrim at h
  rw [List.reverse_reverse] at h
  exact dropWhile_head_false h

theorem jsTrim_idem (l : List Char) : jsTrim (jsTrim l) = jsTrim l := by
  cases h : jsTrim l with
  | nil => simp [jsTrim]
  | cons c t =>
    have hc : jsWs c = false := jsTrim_head_false h
    unfold jsTrim
    have h1 : (c :: t).dropWhile jsWs = c :: t := by
      rw [List.dropWhile_cons, hc]; simp
    rw [h1]
    cases hrv : (c :: t).reverse with
    | nil => exfalso; simpa using congrArg List.length hrv
    | cons d u =>
      have hd : jsWs d = false := jsTrim_last_false (by rw [h, hrv])
      rw [List.dropWhile_cons, hd, if_neg (by simp)]
      rw [← hrv, List.reverse_reverse]

/-- Every chunk emitted by the deduplication loop is already trimmed and has
length at least 50. -/
theorem dedupeAux_mem (seen : List (List Char)) (l : List (List Char)) :
    ∀ e ∈ dedupeAux seen l, jsTrim e = e ∧ 50 ≤ e.length := by
  induction l generalizing seen with
  | nil => intro e he; simp [dedupeAux] at he
  | cons c rest ih =>
    intro e he
    rw [dedupeAux] at he
    by_cases hlen : (jsTrim c).length < 50
    · rw [if_pos hlen] at he
      exact ih seen e he
    · rw [if_neg hlen] at he
      by_cases hsg : chunkSignature (jsTrim c) ∈ seen
      · rw [if_pos hsg] at he
        exact ih seen e he
      · rw [if_neg hsg] at he
        rcases List.mem_cons.mp he with h | h
        · subst h
          exact ⟨jsTrim_idem c, Nat.le_of_not_lt hlen⟩
        · exact ih _ e h

/-- The signatures of the deduplication output are pairwise distinct and
disjoint from the already-seen signatures. -/
theorem dedupeAux_sigs (seen : List (List Char)) (l : List (List Char)) :
    ((dedupeAux seen l).map chunkSignature).Nodup ∧
      ∀ s ∈ (dedupeAux seen l).map chunkSignature, s ∉ seen := by
  induction l generalizing seen with
  | nil => simp [dedupeAux]
  | cons c rest ih =>
    rw [dedupeAux]
    by_cases hlen : (jsTrim c).length < 50
    · rw [if_pos hlen]; exact ih seen
    · rw [if_neg hlen]
      by_cases hsg : chunkSignature (jsTrim c) ∈ seen
      · rw [if_pos hsg]; exact ih seen
      · rw [if_neg hsg]
        have ihs := ih (chunkSignature (jsTrim c) :: seen)
        constructor
        · rw [List.map_cons, List.nodup_cons]
          constructor
          · intro hmem
            exact (ihs.2 _ hmem) (List.mem_cons_self _ _)
          · exact ihs.1
        · intro s hs
          rw [List.map_cons, List.mem_cons] at hs
          rcases hs with h | h
          · subst h; exact hsg
          · intro hcon
            exact (ihs.2 s h) (List.mem_cons_of_mem _ hcon)

/-- On a list whose members are already trimmed, long enough and with
pairwise-distinct signatures unseen so far, the deduplication loop is the
identity. -/
theorem dedupeAux_fixpoint (seen : List (List Char)) (l : List (List Char))
    (htrim : ∀ e ∈ l, jsTrim e = e ∧ 50 ≤ e.length)
    (hnodup : (l.map chunkSignature).Nodup)
    (hdisj : ∀ s ∈ l.map chunkSignature, s ∉ seen) :
    dedupeAux seen l = l := by
  induction l generalizing seen with
  | nil => simp [dedupeAux]
  | cons c rest ih =>
    obtain ⟨hct, hcl⟩ := htrim c (List.mem_cons_self _ _)
    rw [dedupeAux, hct]
    rw [if_neg (Nat.not_lt.mpr hcl)]
    have hcs : chunkSignature c ∉ seen := by
      apply hdisj
      simp
    rw [if_neg hcs]
    rw [List.map_cons, List.nodup_cons] at hnodup
    congr 1
    apply ih
    · intro e he; exact htrim e (List.mem_cons_of_mem _ he)
    · exact hnodup.2
    · intro s hs
      intro hcon
      rcases List.mem_cons.mp hcon with h | h
      · subst h; exact hnodup.1 hs
      · exact hdisj s (List.mem_cons_of_mem _ hs) h

/-- The deduplication output is the input with each survivor trimmed,
in input order (order of first occurrence is preserved). -/
theorem dedupeAux_sublist (seen : List (List Char)) (l : List (List Char)) :
    (dedupeAux seen l).Sublist (l.map jsTrim) := by
  induction l generalizing seen with
  | nil => simp [dedupeAux]
  | cons c rest ih =>
    rw [dedupeAux, List.map_cons]
    by_cases hlen : (jsTrim c).length < 50
    · rw [if_pos hlen]
      exact (ih seen).cons _
    · rw [if_neg hlen]
      by_cases hsg : chunkSignature (jsTrim c) ∈ seen
      · rw [if_pos hsg]
        exact (ih seen).cons _
      · rw [if_neg hsg]
        exact (ih _).cons₂ _

/-! ## Lemmas about the text splitter -/

/-- Drop the first `ov` characters of every chunk and concatenate. -/
def dropJoin (ov : Nat) (l : List (List Char)) : List Char :=
  (l.map (List.drop ov)).flatten

/-- Concatenate a chunk list, removing from every chunk but the first the
`ov` characters it shares with its predecessor. -/
def reconstructOverlap (ov : Nat) : List (List Char) → List Char
  | [] => []
  | c :: rest => c ++ dropJoin ov rest

/-- Unfolding of one splitter iteration for non-zero fuel, with the
recursive call pulled out of the `stop`/`chunk` abbreviations. -/
theorem splitTextAux_ne_zero (t : List Char) (cs ov fuel start : Nat)
    (hf : fuel ≠ 0) :
    splitTextAux t cs ov fuel start =
      if start < t.length then
        (if 0 < ((t.drop start).take (min (start + cs) t.length - start)).length
         then [(t.drop start).take (min (start + cs) t.length - start)] else []) ++
        (if t.length ≤ min (start + cs) t.length then []
         else splitTextAux t cs ov (fuel - 1) (min (start + cs) t.length - ov))
      else [] := by
  cases fuel with
  | zero => exact absurd rfl hf
  | succ n =>
    rw [splitTextAux]
    by_cases hs : start < t.length
    · rw [if_pos hs, if_pos hs]
      by_cases hstop : t.length ≤ min (start + cs) t.length
      · rw [if_pos hstop, if_pos hstop, List.append_nil]
      · rw [if_neg hstop, if_neg hstop]
        rfl
    · rw [if_neg hs, if_neg hs]

/-- With `ov < cs` and enough fuel, dropping the first `ov` characters of
every window and concatenating yields the text from offset `start + ov`. -/
theorem splitTextAux_dropJoin (t : List Char) (cs ov : Nat) (hov : ov < cs) :
    ∀ (fuel start : Nat), t.length ≤ start + fuel * (cs - ov) →
      dropJoin ov (splitTextAux t cs ov fuel start) = t.drop (start + ov) := by
  intro fuel
  induction fuel with
  | zero =>
    intro start hlen
    rw [splitTextAux]
    simp only [Nat.mul_zero, Nat.zero_mul, Nat.add_zero] at hlen
    rw [List.drop_eq_nil_of_le (by omega)]
    rfl
  | succ n ih =>
    intro start hlen
    by_cases hs : start < t.length
    · rw [splitTextAux_ne_zero t cs ov (n + 1) start (Nat.succ_ne_zero n), if_pos hs]
      have hstople : min (start + cs) t.length ≤ t.length := Nat.min_le_right _ _
      have hstopge : start + 1 ≤ min (start + cs) t.length := by omega
      have hchunklen :
          ((t.drop start).take (min (start + cs) t.length - start)).length
            = min (start + cs) t.length - start := by
        rw [List.length_take, List.length_drop]
        omega
      have hposlen :
          0 < ((t.drop start).take (min (start + cs) t.length - start)).length := by
        rw [hchunklen]; omega
      rw [if_pos hposlen]
      by_cases hstop : t.length ≤ min (start + cs) t.length
      · have hstopeq : min (start + cs) t.length = t.length := by omega
        rw [if_pos hstop]
        rw [hstopeq]
        unfold dropJoin
        simp only [List.append_nil, List.map_cons, List.map_nil, List.flatten_cons,
          List.flatten_nil, List.append_nil]
        rw [List.take_of_length_le (by rw [List.length_drop])]
        rw [List.drop_drop]
      · have hstopeq : min (start + cs) t.length = start + cs := by omega
        rw [if_neg hstop, hstopeq]
        have ih' := ih (start + cs - ov) (by
          have hsm : (n + 1) * (cs - ov) = n * (cs - ov) + (cs - ov) := by ring
          omega)
        unfold dropJoin at ih' ⊢
        simp only [List.singleton_append, List.map_cons, List.flatten_cons,
          Nat.add_sub_cancel]
        rw [ih']
        have hdropchunk :
            (((t.drop start).take (start + cs - start)).drop ov)
              = (t.drop (start + ov)).take (cs - ov) := by
          rw [List.drop_take]
          rw [List.drop_drop]
          congr 1
          omega
        rw [hdropchunk]
        have hrest : t.drop (start + cs - ov + ov) = (t.drop (start + ov)).drop (cs - ov) := by
          rw [List.drop_drop]
          congr 1
          omega
        rw [hrest, List.take_append_drop]
    · rw [splitTextAux_ne_zero t cs ov (n + 1) start (Nat.succ_ne_zero n), if_neg hs]
      rw [List.drop_eq_nil_of_le (by omega)]
      rfl

/-- With `ov < cs` and enough fuel, window `i` of the splitter output is
the slice of `t` starting at `start + i * (cs - ov)` of length at most `cs`. -/
theorem splitTextAux_getD (t : List Char) (cs ov : Nat) (hov : ov < cs) :
    ∀ (fuel start i : Nat), t.length ≤ start + fuel * (cs - ov) →
      i < (splitTextAux t cs ov fuel start).length →
      (splitTextAux t cs ov fuel start).getD i [] =
        (t.drop (start + i * (cs - ov))).take cs := by
  intro fuel
  induction fuel with
  | zero =>
    intro start i hlen hi
    rw [splitTextAux] at hi
    simp at hi
  | succ n ih =>
    intro start i hlen hi
    rw [splitTextAux_ne_zero t cs ov (n + 1) start (Nat.succ_ne_zero n)] at hi ⊢
    by_cases hs : start < t.length
    · rw [if_pos hs] at hi ⊢
      have hstople : min (start + cs) t.length ≤ t.length := Nat.min_le_right _ _
      have hstopge : start + 1 ≤ min (start + cs) t.length := by omega
      have hchunklen :
          ((t.drop start).take (min (start + cs) t.length - start)).length
            = min (start + cs) t.length - start := by
        rw [List.length_take, List.length_drop]
        omega
      have hposlen :
          0 < ((t.drop start).take (min (start + cs) t.length - start)).length := by
        rw [hchunklen]; omega
      rw [if_pos hposlen] at hi ⊢
      by_cases hstop : t.length ≤ min (start + cs) t.length
      · rw [if_pos hstop] at hi ⊢
        simp only [List.append_nil] at hi ⊢
        have hi0 : i = 0 := by
          simp only [List.length_singleton] at hi
          omega
        subst hi0
        rw [List.getD_cons_zero]
        rw [List.take_of_length_le (by rw [List.length_drop]; omega)]
        rw [List.take_of_length_le (by rw [List.length_drop]; omega)]
        simp [Nat.zero_mul]
      · rw [if_neg hstop] at hi ⊢
        have hstopeq : min (start + cs) t.length = start + cs := by omega
        rw [hstopeq] at hi ⊢
        simp only [List.singleton_append, Nat.add_sub_cancel] at hi ⊢
        cases i with
        | zero =>
          rw [List.getD_cons_zero]
          simp only [Nat.zero_mul, Nat.add_zero]
          congr 1
          omega
        | succ j =>
          rw [List.getD_cons_succ]
          have hlen' : t.length ≤ (start + cs - ov) + n * (cs - ov) := by
            have hsm : (n + 1) * (cs - ov) = n * (cs - ov) + (cs - ov) := by ring
            omega
          have hij : j < (splitTextAux t cs ov n (start + cs - ov)).length := by
            simp only [List.length_cons] at hi
            omega
          rw [ih (start + cs - ov) j hlen' hij]
          have hidx : start + cs - ov + j * (cs - ov) = start + (j + 1) * (cs - ov) := by
            have hmul : (j + 1) * (cs - ov) = j * (cs - ov) + (cs - ov) := by ring
            omega
          rw [hidx]
    · rw [if_neg hs] at hi
      simp at hi

/-- Overlap-aware reconstruction: for `ov < cs` and a text short enough for
the 1000-iteration cap, gluing the splitter's chunks back together (dropping
the `ov`-character overlap from every chunk but the first) gives back the
input text. -/
theorem splitText_reconstruct (t : List Char) (cs ov : Nat) (hov : ov < cs)
    (hlen : t.length ≤ 1000 * (cs - ov)) :
    reconstructOverlap ov (splitText t cs ov) = t := by
  unfold splitText
  by_cases h0 : 0 < t.length
  · rw [splitTextAux_ne_zero t cs ov 1000 0 (by norm_num), if_pos h0]
    have hstople : min (0 + cs) t.length ≤ t.length := Nat.min_le_right _ _
    have hstopge : 1 ≤ min (0 + cs) t.length := by omega
    have hposlen :
        0 < ((t.drop 0).take (min (0 + cs) t.length - 0)).length := by
      rw [List.length_take, List.length_drop]
      omega
    rw [if_pos hposlen]
    by_cases hstop : t.length ≤ min (0 + cs) t.length
    · rw [if_pos hstop, List.append_nil]
      have hstopeq : min (0 + cs) t.length = t.length := by omega
      rw [hstopeq]
      unfold reconstructOverlap dropJoin
      simp only [List.map_nil, List.flatten_nil, List.append_nil, List.drop_zero,
        Nat.sub_zero]
      exact List.take_length t
    · rw [if_neg hstop]
      have hstopeq : min (0 + cs) t.length = cs := by omega
      rw [hstopeq]
      unfold reconstructOverlap
      simp only [List.singleton_append]
      have hdj : dropJoin ov (splitTextAux t cs ov (1000 - 1) (cs - ov)) =
          t.drop ((cs - ov) + ov) := by
        apply splitTextAux_dropJoin t cs ov hov
        have hsm : (1000 : Nat) * (cs - ov) = (cs - ov) + 999 * (cs - ov) := by ring
        omega
      rw [hdj]
      have hidx : cs - ov + ov = cs := by omega
      rw [hidx]
      simp only [List.drop_zero, Nat.sub_zero]
      exact List.take_append_drop cs t
  · have ht : t = [] := List.length_eq_zero.mp (by omega)
    subst ht
    rw [splitTextAux_ne_zero _ _ _ _ _ (by norm_num), if_neg h0]
    rfl

/-- The end-to-end 2500-character scenario: with the default parameters the
splitter produces exactly the windows `[0,1000)`, `[900,1900)`, `[1800,2500)`. -/
theorem splitText_length_2500 (t : List Char) (h : t.length = 2500) :
    splitText t 1000 100 = [t.take 1000, (t.drop 900).take 1000, (t.drop 1800).take 700] := by
  have e3 : splitTextAux t 1000 100 998 1800 = [(t.drop 1800).take 700] := by
    rw [splitTextAux_ne_zero t 1000 100 998 1800 (by norm_num), h]
    rw [show (min (1800 + 1000) 2500 : Nat) = 2500 from by omega]
    rw [if_pos (show (1800 : Nat) < 2500 from by norm_num)]
    rw [if_pos (show (0 : Nat) < ((t.drop 1800).take (2500 - 1800)).length from by
      rw [List.length_take, List.length_drop, h]; omega)]
    rw [if_pos (show (2500 : Nat) ≤ 2500 from le_refl _)]
    norm_num
  have e2 : splitTextAux t 1000 100 999 900 =
      [(t.drop 900).take 1000, (t.drop 1800).take 700] := by
    rw [splitTextAux_ne_zero t 1000 100 999 900 (by norm_num), h]
    rw [show (min (900 + 1000) 2500 : Nat) = 1900 from by omega]
    rw [if_pos (show (900 : Nat) < 2500 from by norm_num)]
    rw [if_pos (show (0 : Nat) < ((t.drop 900).take (1900 - 900)).length from by
      rw [List.length_take, List.length_drop, h]; omega)]
    rw [if_neg (show ¬((2500 : Nat) ≤ 1900) from by norm_num)]
    norm_num [e3]
  have e1 : splitTextAux t 1000 100 1000 0 =
      [t.take 1000, (t.drop 900).take 1000, (t.drop 1800).take 700] := by
    rw [splitTextAux_ne_zero t 1000 100 1000 0 (by norm_num), h]
    rw [show (min (0 + 1000) 2500 : Nat) = 1000 from by omega]
    rw [if_pos (show (0 : Nat) < 2500 from by norm_num)]
    rw [if_pos (show (0 : Nat) < ((t.drop 0).take (1000 - 0)).length from by
      rw [List.length_take, List.length_drop, h]; omega)]
    rw [if_neg (show ¬((2500 : Nat) ≤ 1000) from by norm_num)]
    norm_num [e2]
  exact e1

/-! ## Embedding provider (`DocumentService.generateEmbedding`)

State and environment records capture the service fields
(`embeddingCache`, `lastEmbeddingCall`, `quotaExceeded`, `quotaResetTime`)
and, per call, the clock and the upstream Gemini response.  `rand` models
`Math.random()`: the mock vector is 768 draws from it. -/

/-- The upstream error object: HTTP status, whether `error.message`
contains `'quota'`, and the parsed `RetryInfo` retry delay in seconds
when the provider supplied one. -/
structure UpstreamError where
  status : Nat
  msgHasQuota : Bool
  retryDelay : Option Nat

/-- Mutable fields of the `DocumentService` singleton that
`generateEmbedding` reads and writes. -/
structure EmbedState where
  cache : List (List Char × List Rat)
  lastEmbeddingCall : Nat
  quotaExceeded : Bool
  quotaResetTime : Nat

/-- Per-call environment: whether `genAI` was configured, `Date.now()`,
the upstream response, and the `Math.random()` stream. -/
structure EmbedEnv where
  configured : Bool
  now : Nat
  upstream : Except UpstreamError (List Rat)
  rand : Nat → Rat

/-- `Array(768).fill(0).map(() => Math.random())`. -/
def mockVector (rand : Nat → Rat) : List Rat :=
  (List.range 768).map rand

/-- `Map.get` on the embedding cache (keys are 100-character prefixes). -/
def lookupCache : List (List Char × List Rat) → List Char → Option (List Rat)
  | [], _ => none
  | (k, v) :: rest, key => if k = key then some v else lookupCache rest key

/-- Result of one `generateEmbedding` call: the returned vector, whether
the upstream service was invoked, and the updated service state. -/
structure EmbedResult where
  vec : List Rat
  calledUpstream : Bool
  state : EmbedState

/-- `DocumentService.generateEmbedding`: cache lookup, quota short-circuit,
unconfigured-provider mock, then the upstream call with success caching and
quota-error handling.  The rate-limit sleep only delays the call, so it is
modelled as the `lastEmbeddingCall := now` write the source performs. -/
def generateEmbedding (env : EmbedEnv) (st : EmbedState) (text : List Char) :
    EmbedResult :=
  let cacheKey := text.take 100
  match lookupCache st.cache cacheKey with
  | some v => ⟨v, false, st⟩
  | none =>
    if st.quotaExceeded ∧ env.now < st.quotaResetTime then
      ⟨mockVector env.rand, false, st⟩
    else if env.configured = false then
      ⟨mockVector env.rand, false, st⟩
    else
      let st1 := { st with lastEmbeddingCall := env.now }
      match env.upstream with
      | Except.ok v =>
        ⟨v, true, { st1 with cache := (cacheKey, v) :: st1.cache, quotaExceeded := false }⟩
      | Except.error e =>
        if e.status = 429 ∨ e.msgHasQuota = true then
          ⟨mockVector env.rand, true,
            { st1 with
                quotaExceeded := true
                quotaResetTime :=
                  match e.retryDelay with
                  | some s => env.now + s * 1000
                  | none => env.now + 60000 }⟩
        else ⟨mockVector env.rand, true, st1⟩

/-! ## Document records and retrieval (`DocumentService.searchDocuments`) -/

/-- One entry of `Document.chunks` (`IDocumentChunk`; the optional
`pageNumber` is never set by the service and is omitted). -/
structure DocChunk where
  content : List Char
  chunkIndex : Nat
deriving DecidableEq

/-- A MongoDB `Document` record as created by the ingestion pipeline
(`uploadedAt` carries no claim-relevant information and is omitted;
ObjectIds are modelled as `Nat`). -/
structure DocRecord where
  id : Nat
  botId : Nat
  userId : Nat
  filename : List Char
  fileType : List Char
  fileSize : Nat
  source : List Char
  chunks : List DocChunk
  totalChunks : Nat
  processed : Bool
deriving DecidableEq

/-- One hit as returned by `ChromaDBService.searchSimilar` (its metadata
fields inlined; `score` is already the `1 - distance` value the service
computes). -/
structure ChromaHit where
  hitId : List Char
  text : List Char
  score : Rat
  documentId : Nat
  chunkIndex : Nat
  source : List Char
deriving DecidableEq

/-- One element of the `searchDocuments` result. -/
structure SearchResult where
  content : List Char
  score : Rat
  filename : List Char
deriving DecidableEq

/-- Environment of one retrieval call: `chromaService.isConnected()` and
the ranked hit list ChromaDB would return for the query embedding
(`searchSimilar` truncates it to `nResults`).  The query embedding itself
is computed by `generateEmbedding` and only flows into this response, so
it is absorbed into `chromaHits`. -/
structure SearchEnv where
  chromaConnected : Bool
  chromaHits : List ChromaHit

/-- `ChromaDBService.searchSimilar`: empty when the service is not
available, otherwise the first `k` ranked hits. -/
def searchSimilar (env : SearchEnv) (k : Nat) : List ChromaHit :=
  if env.chromaConnected then env.chromaHits.take k else []

/-- `DocumentService.searchDocuments`: load the bot's processed documents,
return `[]` when there are none; on the ChromaDB path over-fetch
`topK * 2` hits, keep only hits whose `documentId` belongs to this bot's
processed documents, truncate to `topK` and attach filenames
(`docMap.get` misses print `'Unknown'`; on duplicate ids the JS `Map`
keeps the last binding and `find?` the first — ids are unique in MongoDB);
on the fallback path return the chunks of the bot's documents in stored
order with the fixed neutral score `0.5`, truncated to `topK`. -/
def searchDocuments (env : SearchEnv) (docs : List DocRecord)
    (botId : Nat) (topK : Nat) : List SearchResult :=
  let documents := docs.filter (fun d => d.botId == botId && d.processed)
  if documents.isEmpty then []
  else if env.chromaConnected then
    let documentIds := documents.map (fun d => d.id)
    let chromaResults := searchSimilar env (topK * 2)
    let filteredResults := chromaResults.filter (fun r => documentIds.contains r.documentId)
    (filteredResults.take topK).map (fun r =>
      { content := r.text
        score := r.score
        filename :=
          match documents.find? (fun d => d.id == r.documentId) with
          | some d => d.filename
          | none => ['U','n','k','n','o','w','n'] })
  else
    let results := (documents.map (fun d =>
      d.chunks.map (fun ch =>
        ({ content := ch.content, score := (0.5 : Rat), filename := d.filename } : SearchResult)))).flatten
    results.take topK

/-! ## Ingestion and deletion (`processDocument`, `processDocumentFromText`,
`deleteDocument`) -/

/-- Errors surfaced by the ingestion pipeline. -/
inductive IngestErr where
  | pdfParseFailed
  | noTextContent
  | metaStoreFailed
deriving DecidableEq

/-- Events on the external stores, recorded in call order: one `embed` per
chunk embedding computed or attempted, a `metaCreate` for the MongoDB
`DocumentModel.create`, a `chromaAdd` / `chromaDelete` for the
corresponding `chromaService` call (both of which catch internally and
never throw). -/
inductive Ev where
  | embed
  | metaCreate (id : Nat)
  | chromaAdd (id : Nat)
  | chromaDelete (id : Nat)
deriving DecidableEq

/-- MongoDB contents plus the ordered event trace. -/
structure Store where
  docs : List DocRecord
  trace : List Ev
deriving DecidableEq

/-- Per-call ingestion environment: whether `pdfParse` throws, the text it
returns otherwise, whether `DocumentModel.create` throws (MongoDB creation
is atomic: on failure no record exists), and the ObjectId assigned to a
created record. -/
structure IngestEnv where
  parseFails : Bool
  parsedText : List Char
  createFails : Bool
  nextId : Nat

/-- `DocumentService.processDocument`: parse the PDF, reject empty text,
chunk, embed every chunk (the embedding provider never throws, cf.
`generateEmbedding`; each chunk leaves one `embed` event), persist the
Document record, then store embeddings in ChromaDB.  The outer `catch`
rethrows, so errors surface unchanged. -/
def processDocument (env : IngestEnv) (st : Store) (botId userId : Nat)
    (filename : List Char) (bufferLen : Nat) (fileType : List Char) :
    Except IngestErr Nat × Store :=
  if env.parseFails then (Except.error IngestErr.pdfParseFailed, st)
  else if (jsTrim env.parsedText).length = 0 then
    (Except.error IngestErr.noTextContent, st)
  else
    let chunks := chunkText env.parsedText
    let st1 : Store := { st with trace := st.trace ++ List.replicate chunks.length Ev.embed }
    if env.createFails then (Except.error IngestErr.metaStoreFailed, st1)
    else
      let doc : DocRecord :=
        { id := env.nextId, botId := botId, userId := userId
          filename := filename, fileType := fileType, fileSize := bufferLen
          source := ['p','d','f']
          chunks := chunks.mapIdx (fun i c => { content := c, chunkIndex := i })
          totalChunks := chunks.length, processed := true }
      let st2 : Store := { st1 with docs := st1.docs ++ [doc],
                                    trace := st1.trace ++ [Ev.metaCreate env.nextId] }
      let st3 : Store := { st2 with trace := st2.trace ++ [Ev.chromaAdd env.nextId] }
      (Except.ok env.nextId, st3)

/-- `DocumentService.processDocumentFromText`: as `processDocument` but the
text is given directly (URL ingestion), `fileSize` is the text length and
the source kind is `'url'`. -/
def processDocumentFromText (env : IngestEnv) (st : Store) (botId userId : Nat)
    (filename : List Char) (text : List Char) (fileType : List Char) :
    Except IngestErr Nat × Store :=
  if (jsTrim text).length = 0 then (Except.error IngestErr.noTextContent, st)
  else
    let chunks := chunkText text
    let st1 : Store := { st with trace := st.trace ++ List.replicate chunks.length Ev.embed }
    if env.createFails then (Except.error IngestErr.metaStoreFailed, st1)
    else
      let doc : DocRecord :=
        { id := env.nextId, botId := botId, userId := userId
          filename := filename, fileType := fileType, fileSize := text.length
          source := ['u','r','l']
          chunks := chunks.mapIdx (fun i c => { content := c, chunkIndex := i })
          totalChunks := chunks.length, processed := true }
      let st2 : Store := { st1 with docs := st1.docs ++ [doc],
                                    trace := st1.trace ++ [Ev.metaCreate env.nextId] }
      let st3 : Store := { st2 with trace := st2.trace ++ [Ev.chromaAdd env.nextId] }
      (Except.ok env.nextId, st3)

/-- `DocumentModel.deleteOne({ _id, userId })`: remove the first record
matching both keys, returning the new list and `deletedCount`. -/
def deleteOne : List DocRecord → Nat → Nat → List DocRecord × Nat
  | [], _, _ => ([], 0)
  | d :: rest, docId, uid =>
    if d.id = docId ∧ d.userId = uid then (rest, 1)
    else
      let r := deleteOne rest docId uid
      (d :: r.1, r.2)

/-- Whether the MongoDB `deleteOne` call throws (in which case nothing was
deleted). -/
structure DeleteEnv where
  mongoFails : Bool

/-- `DocumentService.deleteDocument`: delete from MongoDB; only when a
record was actually removed, delete the document's embeddings from
ChromaDB (that call never throws); return `deletedCount > 0`.  The `catch`
turns a storage error into `false`. -/
def deleteDocument (env : DeleteEnv) (st : Store) (documentId userId : Nat) :
    Bool × Store :=
  if env.mongoFails then (false, st)
  else
    let r := deleteOne st.docs documentId userId
    let st1 : Store := { st with docs := r.1 }
    if 0 < r.2 then
      (true, { st1 with trace := st1.trace ++ [Ev.chromaDelete documentId] })
    else (false, st1)

/-! ## Helper lemmas for the service models -/

theorem lookupCache_mem_of_some {cache : List (List Char × List Rat)}
    {key : List Char} {v : List Rat} (h : lookupCache cache key = some v) :
    ∃ k, (k, v) ∈ cache := by
  induction cache with
  | nil => simp [lookupCache] at h
  | cons p rest ih =>
    obtain ⟨k, w⟩ := p
    rw [lookupCache] at h
    by_cases hk : k = key
    · rw [if_pos hk] at h
      cases h
      exact ⟨k, List.mem_cons_self _ _⟩
    · rw [if_neg hk] at h
      obtain ⟨k2, hk2⟩ := ih h
      exact ⟨k2, List.mem_cons_of_mem _ hk2⟩

theorem mockVector_length (rand : Nat → Rat) : (mockVector rand).length = 768 := by
  simp [mockVector]

theorem mapIdx_chunk_index (l : List (List Char)) :
    (l.mapIdx (fun i c => ({ content := c, chunkIndex := i } : DocChunk))).map
        (fun ch => ch.chunkIndex) = List.range l.length := by
  rw [List.mapIdx_eq_enum_map, List.map_map]
  have heq : ((fun ch => ch.chunkIndex) ∘
      Function.uncurry fun i c => ({ content := c, chunkIndex := i } : DocChunk))
        = Prod.fst := by
    funext p
    rfl
  rw [heq, List.enum_map_fst]

theorem mapIdx_chunk_content (l : List (List Char)) :
    (l.mapIdx (fun i c => ({ content := c, chunkIndex := i } : DocChunk))).map
        (fun ch => ch.content) = l := by
  rw [List.mapIdx_eq_enum_map, List.map_map]
  have heq : ((fun ch => ch.content) ∘
      Function.uncurry fun i c => ({ content := c, chunkIndex := i } : DocChunk))
        = Prod.snd := by
    funext p
    rfl
  rw [heq, List.enum_map_snd]

theorem mapIdx_chunk_length (l : List (List Char)) :
    (l.mapIdx (fun i c => ({ content := c, chunkIndex := i } : DocChunk))).length
      = l.length := by
  rw [List.mapIdx_eq_enum_map, List.length_map, List.enum_length]

theorem deleteOne_count_iff (docs : List DocRecord) (docId uid : Nat) :
    ((deleteOne docs docId uid).2 = 1 ↔ ∃ d ∈ docs, d.id = docId ∧ d.userId = uid) ∧
    ((deleteOne docs docId uid).2 = 0 ∨ (deleteOne docs docId uid).2 = 1) ∧
    ((deleteOne docs docId uid).2 = 0 → (deleteOne docs docId uid).1 = docs) := by
  induction docs with
  | nil => simp [deleteOne]
  | cons d rest ih =>
    rw [deleteOne]
    by_cases hd : d.id = docId ∧ d.userId = uid
    · rw [if_pos hd]
      refine ⟨?_, Or.inr rfl, ?_⟩
      · constructor
        · intro _
          exact ⟨d, List.mem_cons_self d rest, hd⟩
        · intro _
          rfl
      · intro h
        simp at h
    · rw [if_neg hd]
      refine ⟨?_, ih.2.1, ?_⟩
      · rw [show ((d :: (deleteOne rest docId uid).1, (deleteOne rest docId uid).2)).2
            = (deleteOne rest docId uid).2 from rfl]
        rw [ih.1]
        constructor
        · rintro ⟨e, he, hprop⟩
          exact ⟨e, List.mem_cons_of_mem _ he, hprop⟩
        · rintro ⟨e, he, hprop⟩
          rcases List.mem_cons.mp he with h | h
          · subst h
            exact absurd hprop hd
          · exact ⟨e, h, hprop⟩
      · intro h
        have h2 : (deleteOne rest docId uid).2 = 0 := h
        rw [show ((d :: (deleteOne rest docId uid).1, (deleteOne rest docId uid).2)).1
            = d :: (deleteOne rest docId uid).1 from rfl]
        rw [ih.2.2 h2]

/-! ## Claim theorems -/

/-- **C7.** The deduplication stage is idempotent:
`dedupeChunks (dedupeChunks chunks) = dedupeChunks chunks`; moreover the
output lists the surviving (trimmed) chunks in input order — it is a
sublist of the trimmed input — with pairwise-distinct signatures, so only
the first occurrence per signature is kept. -/
theorem dedupeChunks_idempotent (chunks : List (List Char)) :
    dedupeChunks (dedupeChunks chunks) = dedupeChunks chunks ∧
    (dedupeChunks chunks).Sublist (chunks.map jsTrim) ∧
    ((dedupeChunks chunks).map chunkSignature).Nodup := by
  refine ⟨?_, dedupeAux_sublist [] chunks, (dedupeAux_sigs [] chunks).1⟩
  unfold dedupeChunks
  apply dedupeAux_fixpoint
  · exact dedupeAux_mem [] chunks
  · exact (dedupeAux_sigs [] chunks).1
  · intro s hs
    simp

/-- **C8.** No chunk whose trimmed length is under 50 characters survives
deduplication: every chunk in the deduplicator's output — and hence every
chunk returned by `chunkText` — is trimmed and has length at least 50. -/
theorem dedupeChunks_min_length :
    (∀ (chunks : List (List Char)), ∀ c ∈ dedupeChunks chunks,
       jsTrim c = c ∧ 50 ≤ c.length) ∧
    (∀ (text : List Char), ∀ c ∈ chunkText text,
       jsTrim c = c ∧ 50 ≤ c.length) := by
  constructor
  · intro chunks c hc
    exact dedupeAux_mem [] chunks c hc
  · intro text c hc
    exact dedupeAux_mem [] (splitText (normalizeText text) 1000 100) c hc

/-- Witness for C8 at a concrete 60-character chunk. -/
theorem dedupeChunks_min_length_witness :
    jsTrim (List.replicate 60 'a') = List.replicate 60 'a' ∧
      50 ≤ (List.replicate 60 'a').length :=
  dedupeChunks_min_length.1 [List.replicate 60 'a'] (List.replicate 60 'a') (by decide)

/-- **C5 (amended).** For `overlap < chunkSize` and a text that the
1000-iteration safety cap can cover (`t.length ≤ 1000 * (chunkSize -
overlap)`), the splitter's windows start at offsets
`0, chunkSize-overlap, 2*(chunkSize-overlap), …`, each window is
`min chunkSize remaining` characters long (`.take` truncates at the end of
the text), concatenating the windows minus their overlaps reconstructs the
text exactly (in particular the cap never truncated it), and for a
2500-character text with the default parameters the windows span exactly
`[0,1000)`, `[900,1900)`, `[1800,2500)`.  (The original claim asserted
reconstruction for *every* text with `overlap < chunkSize`; beyond the cap
the loop stops early and the tail of the text is lost — see the
counterexample.) -/
theorem splitText_windows (t : List Char) (cs ov : Nat)
    (hov : ov < cs) (hcap : t.length ≤ 1000 * (cs - ov)) :
    (∀ i, i < (splitText t cs ov).length →
       (splitText t cs ov).getD i [] = (t.drop (i * (cs - ov))).take cs) ∧
    reconstructOverlap ov (splitText t cs ov) = t ∧
    (cs = 1000 → ov = 100 → t.length = 2500 →
       splitText t cs ov =
         [t.take 1000, (t.drop 900).take 1000, (t.drop 1800).take 700]) := by
  refine ⟨?_, splitText_reconstruct t cs ov hov hcap, ?_⟩
  · intro i hi
    have h := splitTextAux_getD t cs ov hov 1000 0 i (by omega) hi
    simpa [splitText] using h
  · intro h1 h2 h3
    subst h1
    subst h2
    exact splitText_length_2500 t h3

/-- Witness for C5 at a concrete three-character text with
`chunkSize = 2, overlap = 1`. -/
theorem splitText_windows_witness :
    reconstructOverlap 1 (splitText ['a', 'b', 'c'] 2 1) = ['a', 'b', 'c'] :=
  (splitText_windows ['a', 'b', 'c'] 2 1 (by norm_num) (by decide)).2.1

/-- The splitter emits at most one chunk per loop iteration. -/
theorem splitTextAux_length_le (t : List Char) (cs ov : Nat) :
    ∀ (fuel start : Nat), (splitTextAux t cs ov fuel start).length ≤ fuel := by
  intro fuel
  induction fuel with
  | zero =>
    intro start
    rw [splitTextAux]
    simp
  | succ n ih =>
    intro start
    rw [splitTextAux_ne_zero t cs ov (n + 1) start (Nat.succ_ne_zero n)]
    by_cases hs : start < t.length
    · rw [if_pos hs, List.length_append]
      have h1 : (if 0 < ((t.drop start).take (min (start + cs) t.length - start)).length
          then [(t.drop start).take (min (start + cs) t.length - start)]
          else ([] : List (List Char))).length ≤ 1 := by
        split <;> simp
      have h2 : (if t.length ≤ min (start + cs) t.length then ([] : List (List Char))
          else splitTextAux t cs ov (n + 1 - 1) (min (start + cs) t.length - ov)).length
            ≤ n := by
        split
        · simp
        · simpa using ih (min (start + cs) t.length - ov)
      omega
    · rw [if_neg hs]
      simp

/-- Every chunk the splitter emits has at most `chunkSize` characters. -/
theorem splitTextAux_chunk_le (t : List Char) (cs ov : Nat) :
    ∀ (fuel start : Nat), ∀ c ∈ splitTextAux t cs ov fuel start, c.length ≤ cs := by
  intro fuel
  induction fuel with
  | zero =>
    intro start c hc
    rw [splitTextAux] at hc
    simp at hc
  | succ n ih =>
    intro start c hc
    rw [splitTextAux_ne_zero t cs ov (n + 1) start (Nat.succ_ne_zero n)] at hc
    by_cases hs : start < t.length
    · rw [if_pos hs, List.mem_append] at hc
      rcases hc with hc | hc
      · have hceq : c = (t.drop start).take (min (start + cs) t.length - start) := by
          revert hc
          split
          · intro hc
            simpa using hc
          · intro hc
            simp at hc
        rw [hceq, List.length_take, List.length_drop]
        omega
      · revert hc
        split
        · intro hc
          simp at hc
        · intro hc
          exact ih _ c hc
    · rw [if_neg hs] at hc
      simp at hc

/-- Dropping `ov` characters from every chunk of length at most `cs` and
concatenating yields at most `count * (cs - ov)` characters. -/
theorem dropJoin_length_le (ov cs : Nat) (l : List (List Char))
    (h : ∀ x ∈ l, x.length ≤ cs) :
    (dropJoin ov l).length ≤ l.length * (cs - ov) := by
  induction l with
  | nil => simp [dropJoin]
  | cons x rest ih =>
    unfold dropJoin at ih ⊢
    simp only [List.map_cons, List.flatten_cons, List.length_append, List.length_cons]
    have hx : (x.drop ov).length ≤ cs - ov := by
      rw [List.length_drop]
      have := h x (List.mem_cons_self _ _)
      omega
    have hrest := ih (fun y hy => h y (List.mem_cons_of_mem _ hy))
    have hmul : (rest.length + 1) * (cs - ov) = rest.length * (cs - ov) + (cs - ov) := by
      ring
    omega

/-- Whatever the text, the overlap-dropping reconstruction of the splitter
output has at most `cs + (fuel - 1) * (cs - ov)` characters: with the
source's `fuel = 1000` cap, long texts cannot be reconstructed. -/
theorem reconstructOverlap_length_le (t : List Char) (cs ov fuel start : Nat) :
    (reconstructOverlap ov (splitTextAux t cs ov fuel start)).length ≤
      cs + (fuel - 1) * (cs - ov) := by
  cases hsplit : splitTextAux t cs ov fuel start with
  | nil =>
    rw [reconstructOverlap]
    simp
  | cons c rest =>
    rw [reconstructOverlap, List.length_append]
    have hc : c.length ≤ cs :=
      splitTextAux_chunk_le t cs ov fuel start c
        (by rw [hsplit]; exact List.mem_cons_self _ _)
    have hcnt : rest.length + 1 ≤ fuel := by
      have hlen := splitTextAux_length_le t cs ov fuel start
      rw [hsplit] at hlen
      simpa using hlen
    have hrest : (dropJoin ov rest).length ≤ rest.length * (cs - ov) := by
      apply dropJoin_length_le
      intro x hx
      exact splitTextAux_chunk_le t cs ov fuel start x
        (by rw [hsplit]; exact List.mem_cons_of_mem _ hx)
    have hmul : rest.length * (cs - ov) ≤ (fuel - 1) * (cs - ov) :=
      Nat.mul_le_mul_right _ (by omega)
    omega

/-- **C5 counterexample.** With `chunkSize = 2, overlap = 1` — inside the
original claim's scope, since `overlap < chunkSize` — a 1002-character
text needs more than 1000 windows, so the `maxIterations = 1000` safety
cap stops the loop early (after the window `[999, 1001)`, with
`start = 1000 < 1002` remaining), and gluing the produced chunks back
together yields at most 1001 characters: the claimed reconstruction
fails. -/
theorem splitText_windows_counterexample :
    (1 : Nat) < 2 ∧
    reconstructOverlap 1 (splitText (List.replicate 1002 'a') 2 1) ≠
      List.replicate 1002 'a' := by
  refine ⟨by norm_num, ?_⟩
  intro h
  have hlen := congrArg List.length h
  rw [List.length_replicate] at hlen
  have hb : (reconstructOverlap 1 (splitText (List.replicate 1002 'a') 2 1)).length ≤
      2 + (1000 - 1) * (2 - 1) :=
    reconstructOverlap_length_le (List.replicate 1002 'a') 2 1 1000 0
  rw [hlen] at hb
  omega

set_option maxRecDepth 4000 in
/-- **C4.** `generateEmbedding` is total (the Lean model is a function, and
every source path ends in a `return`, the `catch` included) and returns a
vector of exactly 768 entries for every input text — including the empty
string, an unconfigured provider, and any upstream error — provided every
cached vector and every successful upstream response has 768 entries (the
upstream `embedding-001` contract); the 768-entry cache invariant is
preserved by every call. -/
theorem generateEmbedding_dim (env : EmbedEnv) (st : EmbedState) (text : List Char)
    (hcache : ∀ k v, (k, v) ∈ st.cache → v.length = 768)
    (hup : ∀ v, env.upstream = Except.ok v → v.length = 768) :
    (generateEmbedding env st text).vec.length = 768 ∧
    (∀ k v, (k, v) ∈ (generateEmbedding env st text).state.cache → v.length = 768) := by
  cases hc : lookupCache st.cache (text.take 100) with
  | some v =>
    obtain ⟨k, hk⟩ := lookupCache_mem_of_some hc
    simp only [generateEmbedding, hc]
    exact ⟨hcache k v hk, hcache⟩
  | none =>
    simp only [generateEmbedding, hc]
    by_cases hq : st.quotaExceeded = true ∧ env.now < st.quotaResetTime
    · rw [if_pos hq]
      exact ⟨mockVector_length env.rand, hcache⟩
    · rw [if_neg hq]
      by_cases hconf : env.configured = false
      · rw [if_pos hconf]
        exact ⟨mockVector_length env.rand, hcache⟩
      · rw [if_neg hconf]
        cases hu : env.upstream with
        | ok v =>
          dsimp only
          refine ⟨hup v hu, ?_⟩
          intro k w hkw
          rcases List.mem_cons.mp hkw with h | h
          · rw [Prod.mk.injEq] at h
            obtain ⟨h1, h2⟩ := h
            subst h2
            exact hup w hu
          · exact hcache k w h
        | error e =>
          dsimp only
          by_cases he : e.status = 429 ∨ e.msgHasQuota = true
          · rw [if_pos he]
            exact ⟨mockVector_length env.rand, hcache⟩
          · rw [if_neg he]
            exact ⟨mockVector_length env.rand, hcache⟩

/-- Witness for C4: empty text, empty cache, upstream failing with a
non-quota error. -/
theorem generateEmbedding_dim_witness :
    (generateEmbedding ⟨false, 0, Except.error ⟨500, false, none⟩, fun _ => 0⟩
        ⟨[], 0, false, 0⟩ []).vec.length = 768 :=
  (generateEmbedding_dim ⟨false, 0, Except.error ⟨500, false, none⟩, fun _ => 0⟩
      ⟨[], 0, false, 0⟩ []
      (by intro k v h; simp at h)
      (by intro v h; simp at h)).1

set_option maxRecDepth 4000 in
/-- **C3 (amended).** After the upstream service reports a rate-limit error
(status 429 or a `'quota'` substring in the message) on a cache-missing
call, the quota-exceeded flag is set and the reset time is the provider
retry-delay hint (in seconds) when present, otherwise 60 seconds from now,
and a mock vector is returned.  While the flag is set and unexpired, every
**cache-missing** call returns a mock vector without invoking the upstream
service, leaving the state unchanged; once the reset time has passed, a
cache-missing call with the provider configured invokes the upstream
service again; the flag is cleared by a successful call.  (The original
claim quantified over *every* subsequent call: a call whose 100-character
prefix is cached returns the cached vector instead of a mock — see the
counterexample.) -/
theorem generateEmbedding_quota (env : EmbedEnv) (st : EmbedState) (text : List Char)
    (hmiss : lookupCache st.cache (text.take 100) = none) :
    (∀ e, ¬(st.quotaExceeded = true ∧ env.now < st.quotaResetTime) →
       env.configured = true →
       env.upstream = Except.error e →
       (e.status = 429 ∨ e.msgHasQuota = true) →
       (generateEmbedding env st text).state.quotaExceeded = true ∧
       (generateEmbedding env st text).state.quotaResetTime =
         (match e.retryDelay with
          | some s => env.now + s * 1000
          | none => env.now + 60000) ∧
       (generateEmbedding env st text).vec = mockVector env.rand) ∧
    (st.quotaExceeded = true → env.now < st.quotaResetTime →
       (generateEmbedding env st text).vec = mockVector env.rand ∧
       (generateEmbedding env st text).calledUpstream = false ∧
       (generateEmbedding env st text).state = st) ∧
    (st.quotaResetTime ≤ env.now → env.configured = true →
       (generateEmbedding env st text).calledUpstream = true) ∧
    (∀ v, env.configured = true → env.upstream = Except.ok v →
       ¬(st.quotaExceeded = true ∧ env.now < st.quotaResetTime) →
       (generateEmbedding env st text).state.quotaExceeded = false) := by
  simp only [generateEmbedding, hmiss]
  refine ⟨?_, ?_, ?_, ?_⟩
  · intro e hnq hconf hu he
    rw [if_neg hnq]
    rw [if_neg (by rw [hconf]; simp)]
    rw [hu]
    dsimp only
    rw [if_pos he]
    exact ⟨rfl, rfl, rfl⟩
  · intro h1 h2
    rw [if_pos ⟨h1, h2⟩]
    exact ⟨rfl, rfl, rfl⟩
  · intro hle hconf
    rw [if_neg (fun h => absurd h.2 (by omega))]
    rw [if_neg (by rw [hconf]; simp)]
    cases hu : env.upstream with
    | ok v => rfl
    | error e =>
      dsimp only
      by_cases he : e.status = 429 ∨ e.msgHasQuota = true
      · rw [if_pos he]
      · rw [if_neg he]
  · intro v hconf hu hnq
    rw [if_neg hnq]
    rw [if_neg (by rw [hconf]; simp)]
    rw [hu]

/-- Witness for the amended C3: quota flag set and unexpired, cache miss —
the call returns a mock vector without touching upstream or state. -/
theorem generateEmbedding_quota_witness :
    (generateEmbedding ⟨true, 50, Except.error ⟨500, false, none⟩, fun _ => 0⟩
        ⟨[], 0, true, 100⟩ []).vec = mockVector (fun _ => 0) ∧
    (generateEmbedding ⟨true, 50, Except.error ⟨500, false, none⟩, fun _ => 0⟩
        ⟨[], 0, true, 100⟩ []).calledUpstream = false ∧
    (generateEmbedding ⟨true, 50, Except.error ⟨500, false, none⟩, fun _ => 0⟩
        ⟨[], 0, true, 100⟩ []).state = ⟨[], 0, true, 100⟩ :=
  (generateEmbedding_quota ⟨true, 50, Except.error ⟨500, false, none⟩, fun _ => 0⟩
      ⟨[], 0, true, 100⟩ [] (by decide)).2.1 rfl (by norm_num)

/-- First call of the refutation run: a successful upstream call at time 0
caches the vector of 2s under the key `['a']`. -/
def c3CexSt1 : EmbedState :=
  (generateEmbedding ⟨true, 0, Except.ok (List.replicate 768 2), fun _ => 0⟩
      ⟨[], 0, false, 0⟩ ['a']).state

/-- Second call of the refutation run: a 429 at time 10 (no retry hint)
sets the quota flag with reset time 60010. -/
def c3CexSt2 : EmbedState :=
  (generateEmbedding ⟨true, 10, Except.error ⟨429, true, none⟩, fun _ => 0⟩
      c3CexSt1 ['b']).state

set_option maxRecDepth 40000 in
/-- **C3 counterexample.** At time 20 — with the quota flag set and far from
expiry — a call for the cached text `['a']` does not invoke the upstream
service but returns the *cached* vector, which differs from the mock
vector, refuting "every subsequent generateEmbedding call made before the
reset time returns a mock vector". -/
theorem generateEmbedding_quota_counterexample :
    c3CexSt2.quotaExceeded = true ∧
    (20 : Nat) < c3CexSt2.quotaResetTime ∧
    (generateEmbedding ⟨true, 20, Except.error ⟨500, false, none⟩, fun _ => 0⟩
        c3CexSt2 ['a']).calledUpstream = false ∧
    (generateEmbedding ⟨true, 20, Except.error ⟨500, false, none⟩, fun _ => 0⟩
        c3CexSt2 ['a']).vec ≠ mockVector (fun _ => 0) := by
  decide

/-- **C1.** Every hit returned by `searchDocuments` for bot `A` comes from a
document of the metadata store with `botId = A` and `processed = true`:
on the ChromaDB path the result renders a vector-index hit whose
`documentId` survived the cross-tenant filter (hits with a `documentId`
outside the bot's processed-document id set are dropped before the result
is built), and on the metadata-store fallback path it is a chunk of one of
the bot's processed documents, scored 0.5. -/
theorem searchDocuments_scoped (env : SearchEnv) (docs : List DocRecord)
    (botId topK : Nat) (r : SearchResult)
    (hr : r ∈ searchDocuments env docs botId topK) :
    ∃ d, d ∈ docs ∧ d.botId = botId ∧ d.processed = true ∧
      ((∃ hit, hit ∈ env.chromaHits ∧ hit.documentId = d.id ∧
          r.content = hit.text ∧ r.score = hit.score) ∨
       (∃ ch, ch ∈ d.chunks ∧ r.content = ch.content ∧ r.score = 0.5 ∧
          r.filename = d.filename)) := by
  simp only [searchDocuments] at hr
  by_cases hemp : (docs.filter (fun d => d.botId == botId && d.processed)).isEmpty = true
  · rw [if_pos hemp] at hr
    simp at hr
  · rw [if_neg hemp] at hr
    by_cases hconn : env.chromaConnected = true
    · rw [if_pos hconn] at hr
      rw [List.mem_map] at hr
      obtain ⟨hit, hmem, heq⟩ := hr
      have hmem2 := List.mem_of_mem_take hmem
      rw [List.mem_filter] at hmem2
      obtain ⟨hin, hcontains⟩ := hmem2
      have hdocid : hit.documentId ∈
          (docs.filter (fun d => d.botId == botId && d.processed)).map (fun d => d.id) := by
        simpa using hcontains
      rw [List.mem_map] at hdocid
      obtain ⟨d, hdmem, hid⟩ := hdocid
      rw [List.mem_filter] at hdmem
      obtain ⟨hddocs, hpred⟩ := hdmem
      rw [Bool.and_eq_true, beq_iff_eq] at hpred
      obtain ⟨hbot, hproc⟩ := hpred
      have hinhits : hit ∈ env.chromaHits := by
        rw [searchSimilar, if_pos hconn] at hin
        exact List.mem_of_mem_take hin
      refine ⟨d, hddocs, hbot, hproc, Or.inl ⟨hit, hinhits, hid.symm, ?_, ?_⟩⟩
      · rw [← heq]
      · rw [← heq]
    · rw [if_neg hconn] at hr
      have hr2 := List.mem_of_mem_take hr
      rw [List.mem_flatten] at hr2
      obtain ⟨lst, hlst, hrin⟩ := hr2
      rw [List.mem_map] at hlst
      obtain ⟨d, hdmem, hlst_eq⟩ := hlst
      subst hlst_eq
      rw [List.mem_filter] at hdmem
      obtain ⟨hddocs, hpred⟩ := hdmem
      rw [Bool.and_eq_true, beq_iff_eq] at hpred
      obtain ⟨hbot, hproc⟩ := hpred
      rw [List.mem_map] at hrin
      obtain ⟨ch, hch, hcheq⟩ := hrin
      refine ⟨d, hddocs, hbot, hproc, Or.inr ⟨ch, hch, ?_, ?_, ?_⟩⟩
      · rw [← hcheq]
      · rw [← hcheq]
      · rw [← hcheq]

/-- Document used by the C1 witness. -/
def c1WDoc : DocRecord :=
  { id := 1, botId := 7, userId := 3, filename := ['f'],
    fileType := ['p','d','f'], fileSize := 0, source := ['p','d','f'],
    chunks := [{ content := ['x'], chunkIndex := 0 }], totalChunks := 1,
    processed := true }

/-- Witness for C1 on the fallback path: the single returned chunk is owned
by the bot's processed document. -/
theorem searchDocuments_scoped_witness :
    ∃ d, d ∈ [c1WDoc] ∧ d.botId = 7 ∧ d.processed = true ∧
      ((∃ hit, hit ∈ (⟨false, []⟩ : SearchEnv).chromaHits ∧ hit.documentId = d.id ∧
          (⟨['x'], 0.5, ['f']⟩ : SearchResult).content = hit.text ∧
          (⟨['x'], 0.5, ['f']⟩ : SearchResult).score = hit.score) ∨
       (∃ ch, ch ∈ d.chunks ∧
          (⟨['x'], 0.5, ['f']⟩ : SearchResult).content = ch.content ∧
          (⟨['x'], 0.5, ['f']⟩ : SearchResult).score = 0.5 ∧
          (⟨['x'], 0.5, ['f']⟩ : SearchResult).filename = d.filename)) :=
  searchDocuments_scoped ⟨false, []⟩ [c1WDoc] 7 8 ⟨['x'], 0.5, ['f']⟩ (by
    have hres : searchDocuments ⟨false, []⟩ [c1WDoc] 7 8 =
        [⟨['x'], 0.5, ['f']⟩] := rfl
    rw [hres]
    exact List.mem_singleton.mpr rfl)

/-- **C2 (amended).** The metadata-store fallback is taken exactly when the
Vector Index is unreachable (`chromaService.isConnected()` false): then
every returned hit has score exactly 0.5, the returned contents are the
first `topK` chunk contents of the bot's processed documents in stored
order, and the result is non-empty whenever `topK > 0` and some processed
document of the bot has a chunk.  (The original claim also promised the
fallback when ChromaDB is reachable but yields no usable hit after
cross-tenant filtering; the code then returns the empty ChromaDB-path
result instead — see the counterexample.) -/
theorem searchDocuments_fallback (env : SearchEnv) (docs : List DocRecord)
    (botId topK : Nat) (hconn : env.chromaConnected = false) :
    (∀ r ∈ searchDocuments env docs botId topK, r.score = 0.5) ∧
    (searchDocuments env docs botId topK).map (fun r => r.content) =
      (((docs.filter (fun d => d.botId == botId && d.processed)).map
          (fun d => d.chunks.map (fun ch => ch.content))).flatten).take topK ∧
    (0 < topK →
      (∃ d, d ∈ docs ∧ d.botId = botId ∧ d.processed = true ∧ d.chunks ≠ []) →
      searchDocuments env docs botId topK ≠ []) := by
  have hconn' : ¬(env.chromaConnected = true) := by rw [hconn]; simp
  by_cases hemp : (docs.filter (fun d => d.botId == botId && d.processed)).isEmpty = true
  · have hres : searchDocuments env docs botId topK = [] := by
      simp only [searchDocuments]
      rw [if_pos hemp]
    have hfilter : docs.filter (fun d => d.botId == botId && d.processed) = [] :=
      List.isEmpty_iff.mp hemp
    refine ⟨?_, ?_, ?_⟩
    · intro r hr
      rw [hres] at hr
      simp at hr
    · rw [hres, hfilter]
      simp
    · intro htop hex
      exfalso
      obtain ⟨d, hd, hbot, hproc, _⟩ := hex
      have : d ∈ docs.filter (fun d => d.botId == botId && d.processed) := by
        rw [List.mem_filter]
        exact ⟨hd, by rw [Bool.and_eq_true, beq_iff_eq]; exact ⟨hbot, hproc⟩⟩
      rw [hfilter] at this
      simp at this
  · have hres : searchDocuments env docs botId topK =
        (((docs.filter (fun d => d.botId == botId && d.processed)).map (fun d =>
          d.chunks.map (fun ch =>
            ({ content := ch.content, score := (0.5 : Rat), filename := d.filename }
              : SearchResult)))).flatten).take topK := by
      simp only [searchDocuments]
      rw [if_neg hemp, if_neg hconn']
    refine ⟨?_, ?_, ?_⟩
    · intro r hr
      rw [hres] at hr
      have hr2 := List.mem_of_mem_take hr
      rw [List.mem_flatten] at hr2
      obtain ⟨lst, hlst, hrin⟩ := hr2
      rw [List.mem_map] at hlst
      obtain ⟨d, _, hlst_eq⟩ := hlst
      subst hlst_eq
      rw [List.mem_map] at hrin
      obtain ⟨ch, _, hcheq⟩ := hrin
      rw [← hcheq]
    · rw [hres, List.map_take]
      congr 1
      simp only [List.map_flatten, List.map_map]
      apply congrArg List.flatten
      apply List.map_congr_left
      intro d _
      dsimp only [Function.comp]
      rw [List.map_map]
      rfl
    · intro htop hex
      obtain ⟨d, hd, hbot, hproc, hchunks⟩ := hex
      rw [hres]
      have hdin : d ∈ docs.filter (fun d => d.botId == botId && d.processed) := by
        rw [List.mem_filter]
        exact ⟨hd, by rw [Bool.and_eq_true, beq_iff_eq]; exact ⟨hbot, hproc⟩⟩
      intro hnil
      rw [List.take_eq_nil_iff] at hnil
      rcases hnil with h | h
      · omega
      · have hflat : ∀ lst ∈ ((docs.filter (fun d => d.botId == botId && d.processed)).map
            (fun d => d.chunks.map (fun ch =>
              ({ content := ch.content, score := (0.5 : Rat), filename := d.filename }
                : SearchResult)))), lst = [] := by
          rw [← List.flatten_eq_nil_iff]
          exact h
        have hmem : d.chunks.map (fun ch =>
            ({ content := ch.content, score := (0.5 : Rat), filename := d.filename }
              : SearchResult)) ∈
            ((docs.filter (fun d => d.botId == botId && d.processed)).map
              (fun d => d.chunks.map (fun ch =>
                ({ content := ch.content, score := (0.5 : Rat), filename := d.filename }
                  : SearchResult)))) :=
          List.mem_map_of_mem _ hdin
        have := hflat _ hmem
        rw [List.map_eq_nil_iff] at this
        exact hchunks this

/-- Document used by the C2 witness. -/
def c2WDoc : DocRecord :=
  { id := 2, botId := 7, userId := 3, filename := ['g'],
    fileType := ['p','d','f'], fileSize := 0, source := ['p','d','f'],
    chunks := [{ content := ['z'], chunkIndex := 0 }], totalChunks := 1,
    processed := true }

/-- Witness for the amended C2: with ChromaDB unreachable and a processed
document with a chunk, the fallback result is non-empty. -/
theorem searchDocuments_fallback_witness :
    searchDocuments ⟨false, []⟩ [c2WDoc] 7 8 ≠ [] :=
  (searchDocuments_fallback ⟨false, []⟩ [c2WDoc] 7 8 rfl).2.2 (by norm_num)
    ⟨c2WDoc, by decide, by decide, by decide, by decide⟩

/-- Document used by the C2 counterexample. -/
def c2CexDoc : DocRecord :=
  { id := 1, botId := 7, userId := 3, filename := ['f'],
    fileType := ['p','d','f'], fileSize := 0, source := ['p','d','f'],
    chunks := [{ content := ['x'], chunkIndex := 0 }], totalChunks := 1,
    processed := true }

/-- Environment used by the C2 counterexample: ChromaDB reachable, one hit
belonging to a foreign document id 99. -/
def c2CexEnv : SearchEnv :=
  { chromaConnected := true
    chromaHits := [{ hitId := ['h'], text := ['y'], score := 1, documentId := 99,
                     chunkIndex := 0, source := ['p','d','f'] }] }

/-- **C2 counterexample.** The Vector Index is reachable but every hit is
filtered out as cross-tenant, and bot 7 owns a processed document with a
chunk — yet `searchDocuments` returns `[]` instead of falling back to the
metadata store with 0.5-scored chunks. -/
theorem searchDocuments_fallback_counterexample :
    c2CexEnv.chromaConnected = true ∧
    (∃ d, d ∈ [c2CexDoc] ∧ d.botId = 7 ∧ d.processed = true ∧ d.chunks ≠ []) ∧
    ((searchSimilar c2CexEnv (8 * 2)).filter (fun h =>
        (([c2CexDoc].filter (fun d => d.botId == 7 && d.processed)).map
          (fun d => d.id)).contains h.documentId)) = [] ∧
    searchDocuments c2CexEnv [c2CexDoc] 7 8 = [] := by
  refine ⟨rfl, ⟨c2CexDoc, by decide, by decide, by decide, by decide⟩, by decide, ?_⟩
  rfl

/-- **C6.** Ingestion error handling: if PDF parsing fails or yields no
text, or the metadata-store write fails, `processDocument` surfaces an
error, leaves the document store unchanged and attempts no vector-index
write (in the parse cases the whole store is untouched; in the
metadata-failure case only `embed` events were recorded); a `chromaAdd`
event occurs only on success, and then strictly after the `metaCreate`
event. -/
theorem processDocument_error_handling (env : IngestEnv) (st : Store)
    (botId userId : Nat) (filename : List Char) (bufferLen : Nat)
    (fileType : List Char) :
    (env.parseFails = true →
       processDocument env st botId userId filename bufferLen fileType =
         (Except.error IngestErr.pdfParseFailed, st)) ∧
    (env.parseFails = false → (jsTrim env.parsedText).length = 0 →
       processDocument env st botId userId filename bufferLen fileType =
         (Except.error IngestErr.noTextContent, st)) ∧
    (env.parseFails = false → (jsTrim env.parsedText).length ≠ 0 →
       env.createFails = true →
       (processDocument env st botId userId filename bufferLen fileType).1 =
           Except.error IngestErr.metaStoreFailed ∧
       (processDocument env st botId userId filename bufferLen fileType).2.docs =
           st.docs ∧
       (processDocument env st botId userId filename bufferLen fileType).2.trace =
           st.trace ++ List.replicate (chunkText env.parsedText).length Ev.embed) ∧
    (∀ docId,
       (processDocument env st botId userId filename bufferLen fileType).1 =
           Except.ok docId →
       (processDocument env st botId userId filename bufferLen fileType).2.trace =
         st.trace ++ List.replicate (chunkText env.parsedText).length Ev.embed
           ++ [Ev.metaCreate docId] ++ [Ev.chromaAdd docId]) := by
  refine ⟨?_, ?_, ?_, ?_⟩
  · intro hp
    simp only [processDocument, hp]
    rfl
  · intro hp ht
    simp only [processDocument, hp]
    rw [if_neg (by simp), if_pos ht]
  · intro hp ht hc
    simp only [processDocument, hp]
    rw [if_neg (by simp), if_neg ht, if_pos hc]
    refine ⟨rfl, rfl, ?_⟩
    simp [List.append_assoc]
  · intro docId hok
    by_cases hp : env.parseFails = true
    · simp only [processDocument, hp] at hok
      simp at hok
    · have hp' : env.parseFails = false := by
        cases h : env.parseFails
        · rfl
        · exact absurd h hp
      by_cases ht : (jsTrim env.parsedText).length = 0
      · simp only [processDocument, hp'] at hok
        rw [if_neg (by simp), if_pos ht] at hok
        simp at hok
      · by_cases hc : env.createFails = true
        · simp only [processDocument, hp'] at hok
          rw [if_neg (by simp), if_neg ht, if_pos hc] at hok
          simp at hok
        · have hc' : env.createFails = false := by
            cases h : env.createFails
            · rfl
            · exact absurd h hc
          have hid : docId = env.nextId := by
            simp only [processDocument, hp'] at hok
            rw [if_neg (by simp), if_neg ht, if_neg (by simp [hc'])] at hok
            dsimp only at hok
            cases hok
            rfl
          subst hid
          simp only [processDocument, hp']
          rw [if_neg (by simp), if_neg ht, if_neg (by simp [hc'])]

/-- Witness for C6: a parse failure surfaces the error and leaves the
store untouched. -/
theorem processDocument_error_handling_witness :
    processDocument ⟨true, [], false, 5⟩ ⟨[], []⟩ 7 3 ['f'] 10 ['p','d','f'] =
      (Except.error IngestErr.pdfParseFailed, ⟨[], []⟩) :=
  (processDocument_error_handling ⟨true, [], false, 5⟩ ⟨[], []⟩ 7 3 ['f'] 10
      ['p','d','f']).1 rfl

/-- **C9.** Every Document record created by a successful ingestion — PDF
(`processDocument`) or text/URL (`processDocumentFromText`) — satisfies
`totalChunks = chunks.length`, `processed = true`, carries chunk indices
`0 .. totalChunks-1` in order with the chunk texts produced by `chunkText`,
and is appended to the store only after one embedding per chunk was
computed-or-attempted (all `embed` events precede the `metaCreate` event in
the trace). -/
theorem processDocument_record_invariants (env : IngestEnv) (st : Store)
    (botId userId : Nat) (filename : List Char) (bufferLen : Nat)
    (text : List Char) (fileType : List Char) :
    (∀ docId,
       (processDocument env st botId userId filename bufferLen fileType).1 =
           Except.ok docId →
       ∃ doc : DocRecord,
         (processDocument env st botId userId filename bufferLen fileType).2.docs =
             st.docs ++ [doc] ∧
         doc.totalChunks = doc.chunks.length ∧
         doc.processed = true ∧
         doc.chunks.map (fun ch => ch.chunkIndex) = List.range doc.totalChunks ∧
         doc.chunks.map (fun ch => ch.content) = chunkText env.parsedText ∧
         (processDocument env st botId userId filename bufferLen fileType).2.trace =
           st.trace ++ List.replicate doc.totalChunks Ev.embed
             ++ [Ev.metaCreate docId] ++ [Ev.chromaAdd docId]) ∧
    (∀ docId,
       (processDocumentFromText env st botId userId filename text fileType).1 =
           Except.ok docId →
       ∃ doc : DocRecord,
         (processDocumentFromText env st botId userId filename text fileType).2.docs =
             st.docs ++ [doc] ∧
         doc.totalChunks = doc.chunks.length ∧
         doc.processed = true ∧
         doc.chunks.map (fun ch => ch.chunkIndex) = List.range doc.totalChunks ∧
         doc.chunks.map (fun ch => ch.content) = chunkText text ∧
         (processDocumentFromText env st botId userId filename text fileType).2.trace =
           st.trace ++ List.replicate doc.totalChunks Ev.embed
             ++ [Ev.metaCreate docId] ++ [Ev.chromaAdd docId]) := by
  constructor
  · intro docId hok
    by_cases hp : env.parseFails = true
    · simp only [processDocument, hp] at hok
      simp at hok
    · have hp' : env.parseFails = false := by
        cases h : env.parseFails
        · rfl
        · exact absurd h hp
      by_cases ht : (jsTrim env.parsedText).length = 0
      · simp only [processDocument, hp'] at hok
        rw [if_neg (by simp), if_pos ht] at hok
        simp at hok
      · by_cases hc : env.createFails = true
        · simp only [processDocument, hp'] at hok
          rw [if_neg (by simp), if_neg ht, if_pos hc] at hok
          simp at hok
        · have hc' : env.createFails = false := by
            cases h : env.createFails
            · rfl
            · exact absurd h hc
          have hid : docId = env.nextId := by
            simp only [processDocument, hp'] at hok
            rw [if_neg (by simp), if_neg ht, if_neg (by simp [hc'])] at hok
            dsimp only at hok
            cases hok
            rfl
          subst hid
          simp only [processDocument, hp']
          rw [if_neg (by simp), if_neg ht, if_neg (by simp [hc'])]
          refine ⟨_, rfl, ?_, rfl, ?_, ?_, ?_⟩
          · dsimp only
            rw [mapIdx_chunk_length]
          · dsimp only
            rw [mapIdx_chunk_index]
          · dsimp only
            rw [mapIdx_chunk_content]
          · rfl
  · intro docId hok
    by_cases ht : (jsTrim text).length = 0
    · simp only [processDocumentFromText] at hok
      rw [if_pos ht] at hok
      simp at hok
    · by_cases hc : env.createFails = true
      · simp only [processDocumentFromText] at hok
        rw [if_neg ht, if_pos hc] at hok
        simp at hok
      · have hc' : env.createFails = false := by
          cases h : env.createFails
          · rfl
          · exact absurd h hc
        have hid : docId = env.nextId := by
          simp only [processDocumentFromText] at hok
          rw [if_neg ht, if_neg (by simp [hc'])] at hok
          dsimp only at hok
          cases hok
          rfl
        subst hid
        simp only [processDocumentFromText]
        rw [if_neg ht, if_neg (by simp [hc'])]
        refine ⟨_, rfl, ?_, rfl, ?_, ?_, ?_⟩
        · dsimp only
          rw [mapIdx_chunk_length]
        · dsimp only
          rw [mapIdx_chunk_index]
        · dsimp only
          rw [mapIdx_chunk_content]
        · rfl

/-- Witness for C9: a successful PDF ingestion of the two-character text
`"hi"` (all raw chunks are under 50 characters, so the record carries zero
chunks) creates a record with the invariants. -/
theorem processDocument_record_invariants_witness :
    ∃ doc : DocRecord,
      (processDocument ⟨false, ['h', 'i'], false, 5⟩ ⟨[], []⟩ 7 3 ['f'] 10
          ['p','d','f']).2.docs = ([] : List DocRecord) ++ [doc] ∧
      doc.totalChunks = doc.chunks.length ∧
      doc.processed = true ∧
      doc.chunks.map (fun ch => ch.chunkIndex) = List.range doc.totalChunks ∧
      doc.chunks.map (fun ch => ch.content) = chunkText ['h', 'i'] ∧
      (processDocument ⟨false, ['h', 'i'], false, 5⟩ ⟨[], []⟩ 7 3 ['f'] 10
          ['p','d','f']).2.trace =
        ([] : List Ev) ++ List.replicate doc.totalChunks Ev.embed
          ++ [Ev.metaCreate 5] ++ [Ev.chromaAdd 5] :=
  (processDocument_record_invariants ⟨false, ['h', 'i'], false, 5⟩ ⟨[], []⟩ 7 3
      ['f'] 10 ['h', 'i'] ['p','d','f']).1 5 rfl

/-- Document used by the C10 witness. -/
def c10WDoc : DocRecord :=
  { id := 1, botId := 7, userId := 3, filename := ['f'],
    fileType := ['p','d','f'], fileSize := 0, source := ['p','d','f'],
    chunks := [{ content := ['x'], chunkIndex := 0 }], totalChunks := 1,
    processed := true }

/-- **C10.** `deleteDocument` is total (never throws): on a storage error it
returns `false` with the store unchanged; otherwise it removes the
metadata record matching both the document id and the user id, returns
`true` iff a record was removed, attempts the vector-index deletion exactly
when a record was removed, and leaves the store unchanged when it returns
`false`. -/
theorem deleteDocument_spec (env : DeleteEnv) (st : Store)
    (documentId userId : Nat) :
    (env.mongoFails = true →
       deleteDocument env st documentId userId = (false, st)) ∧
    (env.mongoFails = false →
       ((deleteDocument env st documentId userId).1 = true ↔
          ∃ d, d ∈ st.docs ∧ d.id = documentId ∧ d.userId = userId) ∧
       (deleteDocument env st documentId userId).2.docs =
          (deleteOne st.docs documentId userId).1 ∧
       ((deleteDocument env st documentId userId).1 = true →
          (deleteDocument env st documentId userId).2.trace =
            st.trace ++ [Ev.chromaDelete documentId]) ∧
       ((deleteDocument env st documentId userId).1 = false →
          deleteDocument env st documentId userId = (false, st))) := by
  constructor
  · intro hf
    simp only [deleteDocument, hf]
    rfl
  · intro hf
    simp only [deleteDocument, hf]
    rw [if_neg (by simp)]
    obtain ⟨hiff, hcases, hzero⟩ := deleteOne_count_iff st.docs documentId userId
    by_cases hcnt : 0 < (deleteOne st.docs documentId userId).2
    · rw [if_pos hcnt]
      have hone : (deleteOne st.docs documentId userId).2 = 1 := by
        rcases hcases with h | h
        · omega
        · exact h
      refine ⟨?_, rfl, fun _ => rfl, ?_⟩
      · simp only [true_iff]
        exact hiff.mp hone
      · intro hfalse
        cases hfalse
    · rw [if_neg hcnt]
      have hzero' : (deleteOne st.docs documentId userId).2 = 0 := by omega
      refine ⟨?_, rfl, ?_, ?_⟩
      · constructor
        · intro h
          cases h
        · intro hex
          exfalso
          have := hiff.mpr hex
          omega
      · intro h
        cases h
      · intro _
        have hdocs := hzero hzero'
        rw [hdocs]

/-- Witness for C10: with a working store holding one matching record,
deletion returns `true` and removes it. -/
theorem deleteDocument_spec_witness :
    ((deleteDocument ⟨false⟩ ⟨[c10WDoc], []⟩ 1 3).1 = true ↔
       ∃ d, d ∈ [c10WDoc] ∧ d.id = 1 ∧ d.userId = 3) ∧
    (deleteDocument ⟨false⟩ ⟨[c10WDoc], []⟩ 1 3).2.docs =
       (deleteOne [c10WDoc] 1 3).1 ∧
    ((deleteDocument ⟨false⟩ ⟨[c10WDoc], []⟩ 1 3).1 = true →
       (deleteDocument ⟨false⟩ ⟨[c10WDoc], []⟩ 1 3).2.trace =
         ([] : List Ev) ++ [Ev.chromaDelete 1]) ∧
    ((deleteDocument ⟨false⟩ ⟨[c10WDoc], []⟩ 1 3).1 = false →
       deleteDocument ⟨false⟩ ⟨[c10WDoc], []⟩ 1 3 = (false, ⟨[c10WDoc], []⟩)) :=
  (deleteDocument_spec ⟨false⟩ ⟨[c10WDoc], []⟩ 1 3).2 rfl
